import Mathlib

/-!
Shallow embedding of the model-sentinel verification/storage engine
(`model_sentinel/verify/metadata.py`, `verify.py`, `session.py`,
`storage.py`, `target/base.py`, `target/local.py`, `target/hf.py`)
and proofs about its claimed properties.

JSON documents are embedded as Lean structures whose optional fields
mirror Python's `dict.get` behaviour; Python dicts keyed by strings are
embedded as association lists with upsert semantics.
-/

namespace ModelSentinel

/-- A stored file record / file item, mirroring the permissive dict shape:
every field is read with `.get`, so every field is optional. -/
structure FileRec where
  path : Option String
  hash : Option String
  size : Option Nat
  status : Option String
  verified_at : Option String
deriving DecidableEq, Repr

/-- The `files` entry of a metadata document: a legacy mapping
(filename → record), the new list shape, or any other JSON value. -/
inductive FilesEntry
  | dictE (entries : List (String × FileRec))
  | listE (items : List FileRec)
  | otherE
deriving DecidableEq, Repr

/-- Summary block produced by `build_summary_and_overall`. -/
structure Summary where
  total : Nat
  ok : Nat
  ng : Nat
  skipped : Nat
  unknown : Nat
deriving DecidableEq, Repr

/-- Run information block produced by `compute_run_metadata`. -/
structure RunInfo where
  run_id : Option String
  timestamp : String
  tool_version : String
  target_type : String
  target_id : String
deriving DecidableEq, Repr

/-- A metadata document (`metadata.json`); each field mirrors `.get` on
the underlying dict, hence is optional. -/
structure Metadata where
  schema_version : Option Nat
  run : Option RunInfo
  model_hash : Option String
  last_verified : Option String
  overall_status : Option String
  summary : Option Summary
  files : Option FilesEntry
deriving DecidableEq, Repr

/-- The metadata document `StorageManager.load_metadata` returns when no
`metadata.json` exists yet (it carries only `model_hash`, `last_verified`
and `approved_files`, so `files` is absent). -/
def emptyMetadata : Metadata :=
  { schema_version := none, run := none, model_hash := none,
    last_verified := none, overall_status := none, summary := none,
    files := none }

/-- A session record as built by `build_session_files`. -/
structure SessionFile where
  filename : String
  hash : String
  content : String
  approved : Bool
deriving DecidableEq, Repr

/-- Value stored in the approved-files map built by
`approved_map_from_existing` (`{"hash": …, "size": …, "verified_at": …}`). -/
structure AInfo where
  hash : Option String
  size : Option Nat
  verified_at : Option String
deriving DecidableEq, Repr

/-- The approved-files map, a Python dict keyed by path: an association
list in insertion order with unique keys maintained by `upsert`. -/
def AMap : Type := List (String × AInfo)

/-- `m[k] = v` on a Python dict: replace the value in place when the key
is present, append the binding otherwise. -/
def upsert {α : Type} (m : List (String × α)) (k : String) (v : α) :
    List (String × α) :=
  if m.any (fun p => decide (p.1 = k)) then
    m.map (fun p => if p.1 = k then (k, v) else p)
  else
    m ++ [(k, v)]

/-- `m.get(k)` on a Python dict, as first-match association-list lookup. -/
def lookupA {α : Type} (m : List (String × α)) (k : String) : Option α :=
  (m.find? (fun p => decide (p.1 = k))).map Prod.snd

/-- `approved_map_from_existing`: build the approved file map from the
existing metadata `files` entry (legacy dict or new list); any other
value (including an absent entry) yields the empty map. -/
def approved_map_from_existing (existing_files : Option FilesEntry) :
    List (String × AInfo) :=
  match existing_files with
  | some (FilesEntry.dictE entries) =>
      entries.foldl
        (fun m kv => upsert m kv.1 ⟨kv.2.hash, kv.2.size, kv.2.verified_at⟩) []
  | some (FilesEntry.listE items) =>
      items.foldl
        (fun m item =>
          if item.status.getD "ok" = "ok" then
            upsert m (item.path.getD "") ⟨item.hash, item.size, item.verified_at⟩
          else m) []
  | _ => []

/-- String order used to model Python `sorted` over path strings. -/
def strLe (a b : String) : Prop := a ≤ b

instance : DecidableRel strLe := fun a b => inferInstanceAs (Decidable (a ≤ b))

instance : IsTotal String strLe := ⟨fun a b => le_total a b⟩

instance : IsTrans String strLe := ⟨fun _ _ _ h h' => le_trans h h'⟩

/-- `files_list_from_map`: rebuild the list-shaped `files` entry from the
approved map, in ascending path order, each record with status `"ok"`. -/
def files_list_from_map (m : List (String × AInfo)) : List FileRec :=
  (List.insertionSort strLe (m.map Prod.fst)).map (fun path =>
    let info := (lookupA m path).getD ⟨none, none, none⟩
    ⟨some path, info.hash, info.size, some "ok", info.verified_at⟩)

/-- `build_summary_and_overall`: summary counters plus the overall status
string (`"ok"` when nothing was rejected, `"ng"` when nothing was
approved, `"mixed"` otherwise). -/
def build_summary_and_overall (total ok_count ng_count : Nat) :
    Summary × String :=
  (⟨total, ok_count, ng_count, 0, 0⟩,
    if ng_count = 0 then "ok" else if ok_count = 0 then "ng" else "mixed")

/-- One step of the session loop of `compute_run_metadata`: upsert the
approved file and bump the matching counter. -/
def sessionStep (current_timestamp : String)
    (acc : List (String × AInfo) × Nat × Nat) (sf : SessionFile) :
    List (String × AInfo) × Nat × Nat :=
  if sf.approved then
    (upsert acc.1 sf.filename
        ⟨some sf.hash, some sf.content.utf8ByteSize, some current_timestamp⟩,
      acc.2.1 + 1, acc.2.2)
  else (acc.1, acc.2.1, acc.2.2 + 1)

/-- `compute_run_metadata`: the pure Metadata Compiler. -/
def compute_run_metadata (existing_metadata : Metadata)
    (session_files : List SessionFile) (target_type target_id tool_version
    timestamp_iso current_timestamp : String) : Metadata :=
  let init := (approved_map_from_existing existing_metadata.files, 0, 0)
  let res := session_files.foldl (sessionStep current_timestamp) init
  let total := session_files.length
  let so := build_summary_and_overall total res.2.1 res.2.2
  { schema_version := some 1,
    run := some ⟨none, timestamp_iso, tool_version, target_type, target_id⟩,
    model_hash := existing_metadata.model_hash,
    last_verified := existing_metadata.last_verified,
    overall_status := some so.2,
    summary := some so.1,
    files := some (FilesEntry.listE (files_list_from_map res.1)) }

/-- `build_session_files`: one session record per files-info item, marked
approved when its filename is in the approved list. -/
def build_session_files (files_info : List (String × String × String))
    (approved_files : List String) : List SessionFile :=
  files_info.map (fun fi =>
    ⟨fi.1, fi.2.1, fi.2.2, approved_files.contains fi.1⟩)

/-- Look up the stored record for `filename` in a `files` entry, exactly
as `Verify.check_file_changed` does: key lookup in the legacy dict shape,
first item with matching `path` in the list shape, nothing otherwise. -/
def findStoredRecord (files_entry : Option FilesEntry) (filename : String) :
    Option FileRec :=
  match files_entry.getD (FilesEntry.dictE []) with
  | FilesEntry.dictE entries => lookupA entries filename
  | FilesEntry.listE items =>
      items.find? (fun item => decide (item.path = some filename))
  | FilesEntry.otherE => none

/-- `Verify.check_file_changed`: `true` when the file is new or changed,
`false` only when a stored record exists whose hash equals the current
hash. -/
def check_file_changed (meta : Metadata) (filename current_hash : String) :
    Bool :=
  match findStoredRecord meta.files filename with
  | none => true
  | some file_info =>
      if file_info.hash = some current_hash then false else true

/-- `Verify.update_model_hash`: set `model_hash` and `last_verified`. -/
def update_model_hash (meta : Metadata) (new_hash ts : String) : Metadata :=
  { meta with model_hash := some new_hash, last_verified := some ts }

/-- `Verify._update_file_metadata`: when the `files` entry has the legacy
dict shape, upsert the approved file's record and refresh
`last_verified`; any other shape is left untouched (the new schema is
written at the end of the run). -/
def update_file_metadata (meta : Metadata) (filename file_hash content ts :
    String) : Metadata :=
  match meta.files with
  | some (FilesEntry.dictE entries) =>
      { meta with
        files := some (FilesEntry.dictE (upsert entries filename
          ⟨none, some file_hash, some content.utf8ByteSize, none, some ts⟩))
        last_verified := some ts }
  | _ => meta

/-- A candidate file prepared for verification
(`{"filename", "hash", "content"}`). -/
structure Candidate where
  filename : String
  hash : String
  content : String
deriving DecidableEq, Repr

/-- Observable actions of a verification run: a file-level hash
comparison, or an approval prompt shown to the human. -/
inductive Event
  | fileCheck (filename : String)
  | promptUser (filename : String)
deriving DecidableEq, Repr

/-- The per-file loop of `TargetBase._verify_files_workflow`, threading
the stored metadata (reloaded before each check, saved by approved
prompts) and recording session entries and observable events.
`dec` is the human decision oracle of `Verify.verify_file`. -/
def workflowLoop (dec : Candidate → Bool) (ts : String) :
    Metadata → List Candidate →
    Metadata × List SessionFile × List Event × Bool
  | meta, [] => (meta, [], [], true)
  | meta, f :: rest =>
    if check_file_changed meta f.filename f.hash then
      let approved := dec f
      let meta' :=
        if approved then
          update_file_metadata meta f.filename f.hash f.content ts
        else meta
      let r := workflowLoop dec ts meta' rest
      (r.1, ⟨f.filename, f.hash, f.content, approved⟩ :: r.2.1,
        Event.fileCheck f.filename :: Event.promptUser f.filename :: r.2.2.1,
        approved && r.2.2.2)
    else
      let r := workflowLoop dec ts meta rest
      (r.1, r.2.1, Event.fileCheck f.filename :: r.2.2.1, r.2.2.2)

/-- `TargetBase._verify_files_workflow`: run the per-file loop, then
persist this run's metadata via `compute_run_metadata`
(`Verify.save_run_metadata`). Returns the stored metadata after the run,
the session list, the event trace and the all-verified flag. -/
def verify_files_workflow (dec : Candidate → Bool)
    (ts target_type target_id tool_version timestamp_iso : String)
    (meta : Metadata) (files_to_check : List Candidate) :
    Metadata × List SessionFile × List Event × Bool :=
  let r := workflowLoop dec ts meta files_to_check
  (compute_run_metadata r.1 r.2.1 target_type target_id tool_version
      timestamp_iso ts,
    r.2.1, r.2.2.1, r.2.2.2)

/-- `TargetBase.check_model_hash_changed`: `false` exactly when the
stored `model_hash` equals the current hash. -/
def check_model_hash_changed (meta : Metadata) (current_hash : String) :
    Bool :=
  if meta.model_hash = some current_hash then false else true

/-- `TargetLocal.detect_model_changes`: the current directory hash when
it differs from the stored `model_hash`, `none` otherwise. -/
def detect_model_changes (meta : Metadata) (current_hash : String) :
    Option String :=
  if check_model_hash_changed meta current_hash then some current_hash
  else none

/-- `local._handle_cli_verification`: verify the files; promote the model
hash only when every checked file was approved. Returns the success flag,
the stored metadata after the run and the event trace. -/
def handle_cli_verification (dec : Candidate → Bool)
    (ts target_type target_id tool_version timestamp_iso : String)
    (meta : Metadata) (files : List Candidate) (new_model_hash : String) :
    Bool × Metadata × List Event :=
  let r := verify_files_workflow dec ts target_type target_id tool_version
    timestamp_iso meta files
  if r.2.2.2 then
    (true, update_model_hash r.1 new_model_hash ts, r.2.2.1)
  else
    (false, r.1, r.2.2.1)

/-- `local.verify_local_model` (CLI mode): short-circuit with success and
no events when `detect_model_changes` reports no change, otherwise run
the CLI verification flow. `dir_hash` is the directory fingerprint of the
target and `files` its candidate `.py` files. -/
def verify_local_model (dec : Candidate → Bool)
    (ts target_type target_id tool_version timestamp_iso : String)
    (meta : Metadata) (files : List Candidate) (dir_hash : String) :
    Bool × Metadata × List Event :=
  match detect_model_changes meta dir_hash with
  | none => (true, meta, [])
  | some new_hash =>
      handle_cli_verification dec ts target_type target_id tool_version
        timestamp_iso meta files new_hash

/-- Outcome of a verification run as reported by the orchestrator
(`Verify._verify_model_template`), restricted to the fields
`save_verification_results` reads. -/
structure VerificationResult where
  model_hash_changed : Bool
  new_model_hash : Option String
  files_info : List Candidate
deriving DecidableEq, Repr

/-- `Verify._update_approved_files_directory`: update the stored record
of every approved file with a non-empty hash. -/
def update_approved_files_directory (meta : Metadata)
    (files_info : List Candidate) (approved_files : List String)
    (ts : String) : Metadata :=
  files_info.foldl
    (fun m f =>
      if approved_files.contains f.filename ∧ f.hash ≠ "" then
        update_file_metadata m f.filename f.hash f.content ts
      else m) meta

/-- `Verify.save_verification_results`, as a transformation of the stored
metadata document: nothing happens without a model-hash change; otherwise
the model hash is promoted whenever `new_model_hash` is present, approved
files are written back, and the run's metadata is compiled and saved
(`write_session_metadata` / `save_run_metadata`). -/
def save_verification_results (meta : Metadata)
    (vr : VerificationResult) (approved_files : List String)
    (ts target_type target_id tool_version timestamp_iso : String) :
    Metadata :=
  if vr.model_hash_changed then
    let meta1 :=
      match vr.new_model_hash with
      | some h => update_model_hash meta h ts
      | none => meta
    let meta2 := update_approved_files_directory meta1 vr.files_info
      approved_files ts
    let session := build_session_files
      (vr.files_info.map (fun f => (f.filename, f.hash, f.content)))
      approved_files
    compute_run_metadata meta2 session target_type target_id tool_version
      timestamp_iso ts
  else meta

/-- Python's `str.endswith`, over the strings' code points. -/
def endswith (s suffixStr : String) : Bool :=
  suffixStr.data.isSuffixOf s.data

/-- `TargetHF.verify_remote_files`, collection phase: gather the `.py`
candidate files in listing order; a single failed download
(`_download_file_content` returning `None`) makes the whole run fail
(`none`). `download` is the external content provider. -/
def gather_remote_files (siblings : List (String × String))
    (download : String → Option String) : Option (List Candidate) :=
  match siblings with
  | [] => some []
  | (rfilename, blob_id) :: rest =>
      if endswith rfilename ".py" then
        match download rfilename with
        | some content =>
            (gather_remote_files rest download).map
              (fun cs => ⟨rfilename, blob_id, content⟩ :: cs)
        | none => none
      else gather_remote_files rest download

/-- `TargetHF.get_files_for_verification`: gather the `.py` candidate
files, silently omitting any file whose download failed. -/
def get_files_for_verification (siblings : List (String × String))
    (download : String → Option String) : List Candidate :=
  siblings.foldr
    (fun sib acc =>
      if endswith sib.1 ".py" then
        match download sib.1 with
        | some content => ⟨sib.1, sib.2, content⟩ :: acc
        | none => acc
      else acc) []

/-- UTF-8 encoding of a single code point, as byte values. -/
def utf8Bytes (n : Nat) : List Nat :=
  if n < 128 then [n]
  else if n < 2048 then
    [192 + n / 64, 128 + n % 64]
  else if n < 65536 then
    [224 + n / 4096, 128 + n / 64 % 64, 128 + n % 64]
  else
    [240 + n / 262144, 128 + n / 4096 % 64, 128 + n / 64 % 64, 128 + n % 64]

/-- UTF-8 bytes of a string (`str(rel_path).encode()`). -/
def strBytes (s : String) : List Nat :=
  (s.data.map (fun c => utf8Bytes c.toNat)).flatten

/-- Bytes a single file contributes to the directory hash: the UTF-8
bytes of its relative path followed by its content bytes. -/
def entryBytes (pc : String × List Nat) : List Nat :=
  strBytes pc.1 ++ pc.2

/-- Path order on (path, content) pairs: `sorted(directory.rglob(...))`
compares the file paths. -/
def pathLe (a b : String × List Nat) : Prop := a.1 ≤ b.1

instance : DecidableRel pathLe :=
  fun a b => inferInstanceAs (Decidable (a.1 ≤ b.1))

instance : IsTotal (String × List Nat) pathLe := ⟨fun a b => le_total a.1 b.1⟩

instance : IsTrans (String × List Nat) pathLe :=
  ⟨fun _ _ _ h h' => le_trans h h'⟩

/-- The canonical byte-string `StorageManager.calculate_directory_hash`
(and `TargetBase._calculate_directory_hash`) feeds to SHA-256: for each
file in path-sorted order, the path's UTF-8 bytes followed by the file's
bytes. -/
def calculate_directory_hash_bytes (files : List (String × List Nat)) :
    List Nat :=
  ((List.insertionSort pathLe files).map entryBytes).flatten

/-! ### Association-list (Python dict) lemmas -/

theorem map_fst_upsert_of_any {α : Type} (m : List (String × α)) (k : String)
    (v : α) (h : m.any (fun p => decide (p.1 = k)) = true) :
    (upsert m k v).map Prod.fst = m.map Prod.fst := by
  unfold upsert
  rw [if_pos h, List.map_map]
  apply List.map_congr_left
  intro p _
  by_cases hpk : p.1 = k
  · simp [Function.comp, hpk]
  · simp [Function.comp, hpk]

theorem any_key_eq_false {α : Type} (m : List (String × α)) (k : String)
    (h : k ∉ m.map Prod.fst) : m.any (fun p => decide (p.1 = k)) = false := by
  rw [List.any_eq_false]
  intro p hp
  simp only [decide_eq_true_eq]
  intro hpk
  exact h (hpk ▸ List.mem_map_of_mem Prod.fst hp)

theorem upsert_eq_append {α : Type} (m : List (String × α)) (k : String)
    (v : α) (h : k ∉ m.map Prod.fst) : upsert m k v = m ++ [(k, v)] := by
  unfold upsert
  rw [if_neg]
  simp [any_key_eq_false m k h]

theorem nodup_map_fst_upsert {α : Type} (m : List (String × α)) (k : String)
    (v : α) (h : (m.map Prod.fst).Nodup) :
    ((upsert m k v).map Prod.fst).Nodup := by
  by_cases hmem : m.any (fun p => decide (p.1 = k)) = true
  · rw [map_fst_upsert_of_any m k v hmem]; exact h
  · have hk : k ∉ m.map Prod.fst := by
      intro hkm
      rcases List.mem_map.mp hkm with ⟨p, hp, hpk⟩
      exact hmem (List.any_eq_true.mpr ⟨p, hp, by simp [hpk]⟩)
    rw [upsert_eq_append m k v hk]
    simp [List.nodup_append, h, hk]

theorem find?_map_replace_ne {α : Type} (t : List (String × α))
    (k k' : String) (v : α) (h : k' ≠ k) :
    (t.map (fun p => if p.1 = k then (k, v) else p)).find?
        (fun p => decide (p.1 = k')) =
      t.find? (fun p => decide (p.1 = k')) := by
  induction t with
  | nil => rfl
  | cons a t ih =>
    by_cases hak : a.1 = k
    · have h1 : (k = k') = False := by simp [Ne.symm h]
      have h2 : (a.1 = k') = False := by simp [hak, Ne.symm h]
      simp only [List.map_cons, List.find?_cons, hak, if_true, h1, h2,
        decide_False, ih]
    · rw [List.map_cons, if_neg hak]
      by_cases hak' : a.1 = k'
      · simp [List.find?_cons, hak']
      · simp [List.find?_cons, hak', ih]

theorem lookupA_upsert_self {α : Type} (m : List (String × α)) (k : String)
    (v : α) : lookupA (upsert m k v) k = some v := by
  unfold upsert lookupA
  by_cases hmem : m.any (fun p => decide (p.1 = k)) = true
  · rw [if_pos hmem]
    induction m with
    | nil => simp at hmem
    | cons a t ih =>
      by_cases hak : a.1 = k
      · simp [List.find?_cons, hak]
      · have ht : t.any (fun p => decide (p.1 = k)) = true := by
          rcases List.any_eq_true.mp hmem with ⟨p, hp, hpk⟩
          rcases List.mem_cons.mp hp with rfl | hp'
          · exact absurd (of_decide_eq_true hpk) hak
          · exact List.any_eq_true.mpr ⟨p, hp', hpk⟩
        simpa [List.find?_cons, hak] using ih ht
  · rw [if_neg hmem]
    induction m with
    | nil => simp [List.find?_cons]
    | cons a t ih =>
      have hak : ¬ a.1 = k := by
        intro hk
        exact hmem (List.any_eq_true.mpr ⟨a, List.mem_cons_self a t,
          by simp [hk]⟩)
      have ht : ¬ t.any (fun p => decide (p.1 = k)) = true := by
        intro hk
        rcases List.any_eq_true.mp hk with ⟨p, hp, hpk⟩
        exact hmem (List.any_eq_true.mpr ⟨p, List.mem_cons_of_mem a hp, hpk⟩)
      simpa [List.find?_cons, hak] using ih ht

theorem lookupA_upsert_ne {α : Type} (m : List (String × α)) (k k' : String)
    (v : α) (h : k' ≠ k) : lookupA (upsert m k v) k' = lookupA m k' := by
  unfold upsert lookupA
  by_cases hmem : m.any (fun p => decide (p.1 = k)) = true
  · rw [if_pos hmem, find?_map_replace_ne m k k' v h]
  · rw [if_neg hmem]
    induction m with
    | nil => simp [List.find?_cons, Ne.symm h, h]
    | cons a t ih =>
      have ht : ¬ t.any (fun p => decide (p.1 = k)) = true := by
        intro hk
        rcases List.any_eq_true.mp hk with ⟨p, hp, hpk⟩
        exact hmem (List.any_eq_true.mpr ⟨p, List.mem_cons_of_mem a hp, hpk⟩)
      by_cases hak' : a.1 = k'
      · simp [List.find?_cons, hak']
      · simpa [List.find?_cons, hak'] using ih ht

theorem lookupA_map_graph {α : Type} (ks : List String) (g : String → α)
    (p : String) (hp : p ∈ ks) :
    lookupA (ks.map (fun q => (q, g q))) p = some (g p) := by
  induction ks with
  | nil => cases hp
  | cons a t ih =>
    by_cases hap : a = p
    · subst hap
      simp [lookupA, List.find?_cons]
    · rcases List.mem_cons.mp hp with rfl | hp'
      · exact absurd rfl hap
      · simpa [lookupA, List.find?_cons, hap] using ih hp'

theorem mem_keys_of_lookupA {α : Type} (m : List (String × α)) (p : String)
    (v : α) (h : lookupA m p = some v) : p ∈ m.map Prod.fst := by
  induction m with
  | nil => cases h
  | cons a t ih =>
    by_cases hap : a.1 = p
    · simp [hap]
    · have h' : lookupA t p = some v := by
        simpa [lookupA, List.find?_cons, hap] using h
      simp [ih h']

theorem foldl_upsert_graph {α : Type} (ks : List String) (g : String → α) :
    ∀ acc : List (String × α), (∀ k ∈ ks, k ∉ acc.map Prod.fst) → ks.Nodup →
      ks.foldl (fun m k => upsert m k (g k)) acc =
        acc ++ ks.map (fun k => (k, g k)) := by
  induction ks with
  | nil => intro acc _ _; simp
  | cons a t ih =>
    intro acc hdisj hnd
    simp only [List.foldl_cons]
    rw [upsert_eq_append acc a (g a) (hdisj a (List.mem_cons_self a t))]
    rw [ih (acc ++ [(a, g a)]) ?_ (List.Nodup.of_cons hnd)]
    · simp
    · intro k hk
      simp only [List.map_append, List.mem_append]
      rintro (hk1 | hk2)
      · exact hdisj k (List.mem_cons_of_mem a hk) hk1
      · simp only [List.map_cons, List.map_nil, List.mem_singleton] at hk2
        subst hk2
        exact (List.nodup_cons.mp hnd).1 hk

/-! ### Key-uniqueness of the approved-files map -/

theorem nodup_keys_foldl {α β : Type} (l : List β)
    (step : List (String × α) → β → List (String × α))
    (hstep : ∀ m b, (m.map Prod.fst).Nodup → ((step m b).map Prod.fst).Nodup) :
    ∀ m, (m.map Prod.fst).Nodup → ((l.foldl step m).map Prod.fst).Nodup := by
  induction l with
  | nil => intro m hm; exact hm
  | cons b t ih => intro m hm; exact ih (step m b) (hstep m b hm)

theorem nodup_keys_approved_map (fe : Option FilesEntry) :
    ((approved_map_from_existing fe).map Prod.fst).Nodup := by
  match fe with
  | none => exact List.nodup_nil
  | some FilesEntry.otherE => exact List.nodup_nil
  | some (FilesEntry.dictE entries) =>
      exact nodup_keys_foldl entries _
        (fun m kv hm => nodup_map_fst_upsert m kv.1 _ hm) [] List.nodup_nil
  | some (FilesEntry.listE items) =>
      refine nodup_keys_foldl items _ ?_ [] List.nodup_nil
      intro m item hm
      by_cases hst : item.status.getD "ok" = "ok"
      · simpa [hst] using nodup_map_fst_upsert m (item.path.getD "") _ hm
      · simpa [hst] using hm

theorem nodup_keys_sessionFold (session : List SessionFile) (ts : String) :
    ∀ acc : List (String × AInfo) × Nat × Nat, (acc.1.map Prod.fst).Nodup →
      (((session.foldl (sessionStep ts) acc).1).map Prod.fst).Nodup := by
  induction session with
  | nil => intro acc h; exact h
  | cons sf t ih =>
    intro acc h
    simp only [List.foldl_cons]
    by_cases ha : sf.approved = true
    · exact ih _ (by simpa [sessionStep, ha] using
        nodup_map_fst_upsert acc.1 sf.filename _ h)
    · exact ih _ (by simpa [sessionStep, ha] using h)

/-! ### Session counters (`ok_count` / `ng_count`) -/

theorem sessionFold_counts (session : List SessionFile) (ts : String) :
    ∀ acc : List (String × AInfo) × Nat × Nat,
      (session.foldl (sessionStep ts) acc).2.1 =
          acc.2.1 + (session.filter (fun sf => sf.approved)).length ∧
        (session.foldl (sessionStep ts) acc).2.2 =
          acc.2.2 + (session.filter (fun sf => !sf.approved)).length := by
  induction session with
  | nil => intro acc; simp
  | cons sf t ih =>
    intro acc
    by_cases ha : sf.approved = true
    · have := ih (upsert acc.1 sf.filename
        ⟨some sf.hash, some sf.content.utf8ByteSize, some ts⟩,
        acc.2.1 + 1, acc.2.2)
      constructor
      · rw [List.foldl_cons]
        simp only [sessionStep, ha, if_true]
        rw [this.1]
        simp [List.filter_cons, ha]
        omega
      · rw [List.foldl_cons]
        simp only [sessionStep, ha, if_true]
        rw [this.2]
        simp [List.filter_cons, ha]
    · have hb : sf.approved = false := by
        cases hsf : sf.approved
        · rfl
        · exact absurd hsf ha
      have := ih (acc.1, acc.2.1, acc.2.2 + 1)
      constructor
      · rw [List.foldl_cons]
        simp only [sessionStep, hb, Bool.false_eq_true, if_false]
        rw [this.1]
        simp [List.filter_cons, hb]
      · rw [List.foldl_cons]
        simp only [sessionStep, hb, Bool.false_eq_true, if_false]
        rw [this.2]
        simp [List.filter_cons, hb]
        omega

/-- C2, amended: the `overall_status` produced by the Metadata Compiler is
`"ok"` when no session file was rejected, `"ng"` when no session file was
approved (and at least one was rejected), and `"mixed"` when the session
holds both approved and rejected files. -/
theorem compute_run_metadata_overall_status (existing : Metadata)
    (session : List SessionFile) (tt ti tv T ts : String) :
    (compute_run_metadata existing session tt ti tv T ts).overall_status =
      some (if (session.filter (fun sf => !sf.approved)).length = 0 then "ok"
        else if (session.filter (fun sf => sf.approved)).length = 0 then "ng"
        else "mixed") := by
  unfold compute_run_metadata build_summary_and_overall
  have h := sessionFold_counts session ts
    (approved_map_from_existing existing.files, 0, 0)
  simp only [h.1, h.2, Nat.zero_add]

/-- C2, counterexample: a session with one approved and one rejected file
yields `overall_status = "mixed"`, not `"ng"`, although the number of
rejected files is nonzero — so `"ok"`/`"ng"` are not the only possible
values. -/
theorem compute_run_metadata_overall_mixed :
    (compute_run_metadata emptyMetadata
        [⟨"a.py", "h1", "c1", true⟩, ⟨"b.py", "h2", "c2", false⟩]
        "local" "m" "v" "T" "t").overall_status = some "mixed" ∧
      some ("mixed" : String) ≠ some "ng" ∧
      ([⟨"a.py", "h1", "c1", true⟩,
        (⟨"b.py", "h2", "c2", false⟩ : SessionFile)].filter
          (fun sf => !sf.approved)).length ≠ 0 := by
  refine ⟨by decide, by decide, by decide⟩

/-- C10: `check_file_changed` is total over every metadata shape and
returns `false` exactly when a stored record for the given path exists
(key lookup in the legacy dict shape, first matching `path` in the list
shape) whose stored hash equals the current hash; in particular it
returns `true` when the `files` entry is absent, is neither a mapping nor
a list, or holds no record for the path. -/
theorem check_file_changed_false_iff (meta : Metadata)
    (filename current_hash : String) :
    (meta.files = none →
      check_file_changed meta filename current_hash = true) ∧
    (meta.files = some FilesEntry.otherE →
      check_file_changed meta filename current_hash = true) ∧
    (findStoredRecord meta.files filename = none →
      check_file_changed meta filename current_hash = true) ∧
    (check_file_changed meta filename current_hash = false ↔
      ∃ r : FileRec, findStoredRecord meta.files filename = some r ∧
        r.hash = some current_hash) := by
  refine ⟨?_, ?_, ?_, ?_⟩
  · intro h
    simp [check_file_changed, findStoredRecord, h, lookupA]
  · intro h
    simp [check_file_changed, findStoredRecord, h]
  · intro h
    simp [check_file_changed, h]
  · unfold check_file_changed
    cases hf : findStoredRecord meta.files filename with
    | none => simp
    | some r =>
      by_cases hh : r.hash = some current_hash
      · simp [hh]
      · simp [hh]

/-- Witness for `check_file_changed_false_iff`: a stored list-shape record
for `a.py` with matching hash makes `check_file_changed` return `false`. -/
theorem check_file_changed_false_iff_witness :
    check_file_changed
      { emptyMetadata with files := some (FilesEntry.listE
          [⟨some "a.py", some "h1", none, none, none⟩]) } "a.py" "h1"
      = false :=
  (check_file_changed_false_iff _ "a.py" "h1").2.2.2.mpr
    ⟨⟨some "a.py", some "h1", none, none, none⟩, rfl, rfl⟩

/-- C5: when the stored `model_hash` equals the target's current identity
fingerprint, `detect_model_changes` returns `none` and the verification
run short-circuits: success, the stored metadata unchanged, and no
file-level checks or approval prompts. -/
theorem verify_local_model_short_circuit (dec : Candidate → Bool)
    (ts tt ti tv T : String) (meta : Metadata) (files : List Candidate)
    (dir_hash : String) (h : meta.model_hash = some dir_hash) :
    detect_model_changes meta dir_hash = none ∧
      verify_local_model dec ts tt ti tv T meta files dir_hash
        = (true, meta, []) := by
  have hd : detect_model_changes meta dir_hash = none := by
    simp [detect_model_changes, check_model_hash_changed, h]
  exact ⟨hd, by simp [verify_local_model, hd]⟩

/-- Witness for `verify_local_model_short_circuit` at a concrete verified
store and target. -/
theorem verify_local_model_short_circuit_witness :
    verify_local_model (fun _ => false) "ts" "local" "m" "v" "T"
        { emptyMetadata with model_hash := some "dh" }
        [⟨"a.py", "h1", "c1"⟩] "dh"
      = (true, { emptyMetadata with model_hash := some "dh" }, []) :=
  (verify_local_model_short_circuit (fun _ => false) "ts" "local" "m" "v"
    "T" { emptyMetadata with model_hash := some "dh" }
    [⟨"a.py", "h1", "c1"⟩] "dh" rfl).2

/-! ### Model-hash preservation along the file-verification workflow -/

theorem update_file_metadata_model_hash (meta : Metadata)
    (fn fh c ts : String) :
    (update_file_metadata meta fn fh c ts).model_hash = meta.model_hash := by
  unfold update_file_metadata
  match meta, meta.files with
  | m, none => rfl
  | m, some (FilesEntry.dictE entries) => rfl
  | m, some (FilesEntry.listE items) => rfl
  | m, some FilesEntry.otherE => rfl

theorem compute_run_metadata_model_hash (existing : Metadata)
    (session : List SessionFile) (tt ti tv T ts : String) :
    (compute_run_metadata existing session tt ti tv T ts).model_hash =
      existing.model_hash := rfl

theorem workflowLoop_model_hash (dec : Candidate → Bool) (ts : String) :
    ∀ (files : List Candidate) (meta : Metadata),
      ((workflowLoop dec ts meta files).1).model_hash = meta.model_hash := by
  intro files
  induction files with
  | nil => intro meta; rfl
  | cons f rest ih =>
    intro meta
    unfold workflowLoop
    by_cases hc : check_file_changed meta f.filename f.hash = true
    · rw [if_pos hc]
      by_cases ha : dec f = true
      · simpa [ha] using
          (ih _).trans (update_file_metadata_model_hash meta _ _ _ ts)
      · have ha' : dec f = false := by
          cases hd : dec f
          · rfl
          · exact absurd hd ha
        simpa [ha'] using ih meta
    · have hc' : check_file_changed meta f.filename f.hash = false := by
        cases hd : check_file_changed meta f.filename f.hash
        · rfl
        · exact absurd hd hc
      simpa [hc'] using ih meta

theorem verify_files_workflow_model_hash (dec : Candidate → Bool)
    (ts tt ti tv T : String) (meta : Metadata) (files : List Candidate) :
    ((verify_files_workflow dec ts tt ti tv T meta files).1).model_hash =
      meta.model_hash := by
  unfold verify_files_workflow
  simp only [compute_run_metadata_model_hash]
  exact workflowLoop_model_hash dec ts files meta

/-- C1, amended (run level): in the CLI verification flow, when not every
checked file was approved the run fails and the stored `model_hash` is
left exactly as it was before the run. -/
theorem handle_cli_verification_all_or_nothing (dec : Candidate → Bool)
    (ts tt ti tv T : String) (meta : Metadata) (files : List Candidate)
    (new_model_hash : String)
    (h : (handle_cli_verification dec ts tt ti tv T meta files
      new_model_hash).1 = false) :
    ((handle_cli_verification dec ts tt ti tv T meta files
      new_model_hash).2.1).model_hash = meta.model_hash := by
  unfold handle_cli_verification at h ⊢
  by_cases hflag :
      (verify_files_workflow dec ts tt ti tv T meta files).2.2.2 = true
  · rw [if_pos hflag] at h
    cases h
  · rw [if_neg hflag]
    exact verify_files_workflow_model_hash dec ts tt ti tv T meta files

/-- Witness for `handle_cli_verification_all_or_nothing`: rejecting the
single pending file leaves the (empty) stored model hash unchanged. -/
theorem handle_cli_verification_all_or_nothing_witness :
    ((handle_cli_verification (fun _ => false) "ts" "local" "m" "v" "T"
      emptyMetadata [⟨"a.py", "h1", "c1"⟩] "new").2.1).model_hash
      = emptyMetadata.model_hash :=
  handle_cli_verification_all_or_nothing (fun _ => false) "ts" "local" "m"
    "v" "T" emptyMetadata [⟨"a.py", "h1", "c1"⟩] "new" (by decide)

/-- C1, counterexample: `save_verification_results` with
`model_hash_changed` and a `new_model_hash` promotes the stored
`model_hash` even though the approved list `["a.py"]` omits the pending
file `b.py` — the stored hash moves from `"old"` to `"new"`. -/
theorem save_verification_results_partial_promotion :
    ((save_verification_results
        { emptyMetadata with model_hash := some "old" }
        ⟨true, some "new", [⟨"a.py", "h1", "c1"⟩, ⟨"b.py", "h2", "c2"⟩]⟩
        ["a.py"] "ts" "local" "m" "v" "T").model_hash = some "new") ∧
      (some "new" ≠ some "old") ∧
      ((⟨"b.py", "h2", "c2"⟩ : Candidate) ∈
        [(⟨"a.py", "h1", "c1"⟩ : Candidate), ⟨"b.py", "h2", "c2"⟩]) ∧
      ("b.py" ∉ (["a.py"] : List String)) := by
  refine ⟨by decide, by decide, by decide, by decide⟩

/-! ### Remote fetch failure (C4) -/

/-- Every candidate the listing flow returns was downloaded
successfully. -/
theorem get_files_download_ok (siblings : List (String × String))
    (download : String → Option String) :
    ∀ c ∈ get_files_for_verification siblings download,
      ∃ content, download c.filename = some content := by
  induction siblings with
  | nil => intro c hc; cases hc
  | cons sib rest ih =>
    intro c hc
    unfold get_files_for_verification at hc
    rw [List.foldr_cons] at hc
    by_cases hp : endswith sib.1 ".py" = true
    · rw [if_pos hp] at hc
      cases hd : download sib.1 with
      | none => rw [hd] at hc; exact ih c hc
      | some content =>
          rw [hd] at hc
          rcases List.mem_cons.mp hc with rfl | hc'
          · exact ⟨content, hd⟩
          · exact ih c hc'
    · rw [if_neg hp] at hc
      exact ih c hc

/-- C4, amended: in the prompting flow (`verify_remote_files`) a single
failed download of a candidate `.py` file makes the whole collection
fail (`none`), while the listing flow (`get_files_for_verification`)
never reports a fetch failure: the failed candidate is simply absent from
the returned list. -/
theorem remote_fetch_failure (siblings : List (String × String))
    (download : String → Option String) (fname blob : String)
    (hmem : (fname, blob) ∈ siblings) (hpy : endswith fname ".py" = true)
    (hfail : download fname = none) :
    gather_remote_files siblings download = none ∧
      ∀ c ∈ get_files_for_verification siblings download,
        c.filename ≠ fname := by
  constructor
  · induction siblings with
    | nil => cases hmem
    | cons sib rest ih =>
      rcases List.mem_cons.mp hmem with heq | hmem'
      · have hs : sib = (fname, blob) := heq.symm
        subst hs
        simp only [gather_remote_files, hpy, if_true, hfail]
      · rcases sib with ⟨sf, sb⟩
        simp only [gather_remote_files]
        by_cases hp : endswith sf ".py" = true
        · rw [if_pos hp]
          cases hd : download sf
          · rfl
          · rw [ih hmem']
            rfl
        · rw [if_neg hp]
          exact ih hmem'
  · intro c hc hcf
    rcases get_files_download_ok siblings download c hc with ⟨content, hdc⟩
    rw [hcf, hfail] at hdc
    cases hdc

/-- Witness for `remote_fetch_failure`: a repository with one `.py` file
whose download fails. -/
theorem remote_fetch_failure_witness :
    gather_remote_files [("a.py", "h")] (fun _ => none) = none :=
  (remote_fetch_failure [("a.py", "h")] (fun _ => none) "a.py" "h"
    (by decide) (by decide) rfl).1

/-- C4, counterexample: the listing flow silently drops a `.py` candidate
whose download failed, returning an empty list instead of reporting a
failure — the claim's fail-closed property does not hold for
`get_files_for_verification`. -/
theorem get_files_for_verification_drops_failed :
    get_files_for_verification [("a.py", "h")] (fun _ => none) = [] ∧
      endswith "a.py" ".py" = true ∧
      gather_remote_files [("a.py", "h")] (fun _ => none) = none := by
  refine ⟨rfl, by decide, rfl⟩

/-! ### Fingerprint canonical bytes (C3, C9) -/

/-- Strict path order on (path, content) pairs. -/
def pathLt (a b : String × List Nat) : Prop := a.1 < b.1

instance : IsAntisymm (String × List Nat) pathLt :=
  ⟨fun _ _ h h' => absurd h' (lt_asymm h)⟩

theorem sortedKeys_pairwise_lt (l : List (String × List Nat))
    (hnd : (l.map Prod.fst).Nodup) :
    (List.insertionSort pathLe l).Pairwise pathLt := by
  have hs : List.Sorted pathLe (List.insertionSort pathLe l) :=
    List.sorted_insertionSort pathLe l
  have hperm : List.Perm (List.insertionSort pathLe l) l :=
    List.perm_insertionSort pathLe l
  have hnd' : ((List.insertionSort pathLe l).map Prod.fst).Nodup :=
    ((hperm.map Prod.fst).nodup_iff).mpr hnd
  have hne : (List.insertionSort pathLe l).Pairwise
      (fun a b => a.1 ≠ b.1) := List.pairwise_map.mp hnd'
  exact (hs.and hne).imp (fun h => lt_of_le_of_ne h.1 h.2)

/-- C9: the canonical byte-string of the directory hash is invariant
under permutation of the file enumeration (file paths in a directory
listing are pairwise distinct). -/
theorem calculate_directory_hash_bytes_perm
    (l₁ l₂ : List (String × List Nat)) (hperm : List.Perm l₁ l₂)
    (hnd : (l₁.map Prod.fst).Nodup) :
    calculate_directory_hash_bytes l₁ = calculate_directory_hash_bytes l₂ := by
  have hnd₂ : (l₂.map Prod.fst).Nodup := ((hperm.map Prod.fst).nodup_iff).mp hnd
  have h1 := sortedKeys_pairwise_lt l₁ hnd
  have h2 := sortedKeys_pairwise_lt l₂ hnd₂
  have hp : List.Perm (List.insertionSort pathLe l₁)
      (List.insertionSort pathLe l₂) :=
    (List.perm_insertionSort pathLe l₁).trans
      (hperm.trans (List.perm_insertionSort pathLe l₂).symm)
  have heq : List.insertionSort pathLe l₁ = List.insertionSort pathLe l₂ :=
    List.eq_of_perm_of_sorted hp h1 h2
  unfold calculate_directory_hash_bytes
  rw [heq]

/-- Witness for `calculate_directory_hash_bytes_perm`: swapping a
two-file enumeration leaves the canonical byte-string unchanged. -/
theorem calculate_directory_hash_bytes_perm_witness :
    calculate_directory_hash_bytes [("b.py", [1]), ("a.py", [2])] =
      calculate_directory_hash_bytes [("a.py", [2]), ("b.py", [1])] :=
  calculate_directory_hash_bytes_perm
    [("b.py", [1]), ("a.py", [2])] [("a.py", [2]), ("b.py", [1])]
    (by decide) (by decide)

/-- C3, counterexample: the canonical byte-string is not injective on
file sets — renaming `ab` (content `[99]`) to `a` (content `[98, 99]`)
gives a distinct file set with the same canonical byte-string, because
path bytes and content bytes are concatenated without a separator. -/
theorem directory_hash_bytes_collision :
    calculate_directory_hash_bytes [("ab", [99])] =
      calculate_directory_hash_bytes [("a", [98, 99])] ∧
      ([("ab", [99])] : List (String × List Nat)) ≠ [("a", [98, 99])] := by
  refine ⟨by decide, by decide⟩

/-- C3, amended: with the file paths held fixed (path-sorted enumeration)
and exactly one file's bytes changed, the canonical byte-string changes. -/
theorem directory_hash_bytes_single_content_change
    (A B : List (String × List Nat)) (p : String) (c1 c2 : List Nat)
    (hs : List.Sorted pathLe (A ++ (p, c1) :: B)) (hne : c1 ≠ c2) :
    calculate_directory_hash_bytes (A ++ (p, c1) :: B) ≠
      calculate_directory_hash_bytes (A ++ (p, c2) :: B) := by
  have hmf1 : ((A ++ (p, c1) :: B).map Prod.fst).Pairwise (· ≤ ·) :=
    List.pairwise_map.mpr hs
  have hmf : (A ++ (p, c1) :: B).map Prod.fst
      = (A ++ (p, c2) :: B).map Prod.fst := by simp
  have hmf2 : ((A ++ (p, c2) :: B).map Prod.fst).Pairwise (· ≤ ·) := by
    rw [← hmf]; exact hmf1
  have hiff : ((A ++ (p, c2) :: B).map Prod.fst).Pairwise (· ≤ ·) ↔
      (A ++ (p, c2) :: B).Pairwise (fun a b => a.1 ≤ b.1) :=
    List.pairwise_map
  have hs2 : List.Sorted pathLe (A ++ (p, c2) :: B) := hiff.mp hmf2
  unfold calculate_directory_hash_bytes
  rw [hs.insertionSort_eq, hs2.insertionSort_eq]
  intro hcontra
  rw [List.map_append, List.map_append, List.map_cons, List.map_cons,
    List.flatten_append, List.flatten_append, List.flatten_cons,
    List.flatten_cons] at hcontra
  have h3 := List.append_cancel_left hcontra
  unfold entryBytes at h3
  rw [List.append_assoc, List.append_assoc] at h3
  have h4 := List.append_cancel_left h3
  exact hne (List.append_cancel_right h4)

/-- Witness for `directory_hash_bytes_single_content_change`: changing a
single byte of the one file of a directory changes the canonical
byte-string. -/
theorem directory_hash_bytes_single_content_change_witness :
    calculate_directory_hash_bytes [("a.py", [1])] ≠
      calculate_directory_hash_bytes [("a.py", [2])] :=
  directory_hash_bytes_single_content_change [] [] "a.py" [1] [2]
    (List.sorted_singleton _) (by decide)

/-! ### Carry-forward through the file-verification workflow (C6) -/

theorem findStoredRecord_update_ne (meta : Metadata)
    (g fh c ts fname : String) (h : fname ≠ g) :
    findStoredRecord (update_file_metadata meta g fh c ts).files fname =
      findStoredRecord meta.files fname := by
  unfold update_file_metadata
  cases hf : meta.files with
  | none =>
    show findStoredRecord meta.files fname = findStoredRecord none fname
    rw [hf]
  | some fe =>
    cases fe with
    | dictE entries =>
      show lookupA (upsert entries g
          ⟨none, some fh, some c.utf8ByteSize, none, some ts⟩) fname =
        findStoredRecord (some (FilesEntry.dictE entries)) fname
      exact lookupA_upsert_ne entries g fname _ h
    | listE items =>
      show findStoredRecord meta.files fname =
        findStoredRecord (some (FilesEntry.listE items)) fname
      rw [hf]
    | otherE =>
      show findStoredRecord meta.files fname =
        findStoredRecord (some FilesEntry.otherE) fname
      rw [hf]

theorem check_file_changed_congr (m1 m2 : Metadata) (fname ch : String)
    (h : findStoredRecord m1.files fname = findStoredRecord m2.files fname) :
    check_file_changed m1 fname ch = check_file_changed m2 fname ch := by
  unfold check_file_changed
  rw [h]

theorem workflowLoop_not_processed (dec : Candidate → Bool) (ts : String)
    (fname : String) :
    ∀ (files : List Candidate) (meta : Metadata),
      fname ∉ files.map Candidate.filename →
      (∀ sf ∈ (workflowLoop dec ts meta files).2.1, sf.filename ≠ fname) ∧
        Event.promptUser fname ∉ (workflowLoop dec ts meta files).2.2.1 := by
  intro files
  induction files with
  | nil =>
    intro meta _
    refine ⟨fun sf hsf => absurd hsf (List.not_mem_nil sf), ?_⟩
    intro hm
    exact absurd hm (List.not_mem_nil _)
  | cons f rest ih =>
    intro meta h
    have hne : f.filename ≠ fname := fun he => h (by simp [he])
    have hrest : fname ∉ rest.map Candidate.filename := fun hm =>
      h (by simp [hm])
    unfold workflowLoop
    by_cases hc : check_file_changed meta f.filename f.hash = true
    · rw [if_pos hc]
      rcases ih (if dec f then
          update_file_metadata meta f.filename f.hash f.content ts
        else meta) hrest with ⟨h1, h2⟩
      constructor
      · intro sf hsf
        rcases List.mem_cons.mp hsf with rfl | hsf'
        · exact hne
        · exact h1 sf hsf'
      · intro hm
        rcases List.mem_cons.mp hm with h' | h'
        · cases h'
        · rcases List.mem_cons.mp h' with h'' | h''
          · injection h'' with hh
            exact hne hh.symm
          · exact h2 h''
    · rw [if_neg hc]
      rcases ih meta hrest with ⟨h1, h2⟩
      refine ⟨h1, ?_⟩
      intro hm
      rcases List.mem_cons.mp hm with h' | h'
      · cases h'
      · exact h2 h'

theorem workflowLoop_carry_forward (dec : Candidate → Bool) (ts : String) :
    ∀ (files : List Candidate) (meta : Metadata) (f : Candidate),
      (files.map Candidate.filename).Nodup → f ∈ files →
      check_file_changed meta f.filename f.hash = false →
      (∀ sf ∈ (workflowLoop dec ts meta files).2.1,
        sf.filename ≠ f.filename) ∧
        Event.promptUser f.filename ∉
          (workflowLoop dec ts meta files).2.2.1 := by
  intro files
  induction files with
  | nil => intro meta f _ hf _; cases hf
  | cons g rest ih =>
    intro meta f hnd hf hc
    unfold workflowLoop
    rcases List.mem_cons.mp hf with rfl | hf'
    · rw [if_neg (by simp [hc])]
      have hnotin : f.filename ∉ rest.map Candidate.filename :=
        (List.nodup_cons.mp hnd).1
      rcases workflowLoop_not_processed dec ts f.filename rest meta hnotin
        with ⟨h1, h2⟩
      refine ⟨h1, ?_⟩
      intro hm
      rcases List.mem_cons.mp hm with h' | h'
      · cases h'
      · exact h2 h'
    · have hgne : g.filename ≠ f.filename := by
        intro he
        exact (List.nodup_cons.mp hnd).1
          (he ▸ List.mem_map_of_mem Candidate.filename hf')
      have hndr : (rest.map Candidate.filename).Nodup :=
        (List.nodup_cons.mp hnd).2
      by_cases hcg : check_file_changed meta g.filename g.hash = true
      · rw [if_pos hcg]
        have hc' : ∀ meta' : Metadata,
            findStoredRecord meta'.files f.filename =
              findStoredRecord meta.files f.filename →
            check_file_changed meta' f.filename f.hash = false := by
          intro meta' hpres
          rw [check_file_changed_congr meta' meta f.filename f.hash hpres]
          exact hc
        have hcnext : check_file_changed (if dec g then
            update_file_metadata meta g.filename g.hash g.content ts
          else meta) f.filename f.hash = false := by
          by_cases ha : dec g = true
          · rw [if_pos ha]
            exact hc' _ (findStoredRecord_update_ne meta g.filename g.hash
              g.content ts f.filename (Ne.symm hgne))
          · rw [if_neg ha]
            exact hc
        rcases ih (if dec g then
            update_file_metadata meta g.filename g.hash g.content ts
          else meta) f hndr hf' hcnext with ⟨h1, h2⟩
        constructor
        · intro sf hsf
          rcases List.mem_cons.mp hsf with rfl | hsf'
          · exact hgne
          · exact h1 sf hsf'
        · intro hm
          rcases List.mem_cons.mp hm with h' | h'
          · cases h'
          · rcases List.mem_cons.mp h' with h'' | h''
            · injection h'' with hh
              exact hgne hh.symm
            · exact h2 h''
      · rw [if_neg hcg]
        rcases ih meta f hndr hf' hc with ⟨h1, h2⟩
        refine ⟨h1, ?_⟩
        intro hm
        rcases List.mem_cons.mp hm with h' | h'
        · cases h'
        · exact h2 h'

/-- C6: a candidate file whose current hash equals the hash of its stored
record (under either metadata shape) is reported unchanged by
`check_file_changed`, is never placed in the run's pending/session set,
and is never prompted for approval — whatever the model-level
fingerprint did. -/
theorem verify_files_workflow_carry_forward (dec : Candidate → Bool)
    (ts tt ti tv T : String) (meta : Metadata) (files : List Candidate)
    (f : Candidate) (hnd : (files.map Candidate.filename).Nodup)
    (hf : f ∈ files)
    (hrec : ∃ r : FileRec, findStoredRecord meta.files f.filename = some r ∧
      r.hash = some f.hash) :
    check_file_changed meta f.filename f.hash = false ∧
      (∀ sf ∈ (verify_files_workflow dec ts tt ti tv T meta files).2.1,
        sf.filename ≠ f.filename) ∧
      Event.promptUser f.filename ∉
        (verify_files_workflow dec ts tt ti tv T meta files).2.2.1 := by
  rcases hrec with ⟨r, hr, hh⟩
  have hc : check_file_changed meta f.filename f.hash = false := by
    simp [check_file_changed, hr, hh]
  rcases workflowLoop_carry_forward dec ts files meta f hnd hf hc
    with ⟨h1, h2⟩
  exact ⟨hc, h1, h2⟩

/-- Witness for `verify_files_workflow_carry_forward`: a stored record
for `a.py` with its current hash keeps `a.py` out of the pending set even
though the run processes a changed `b.py`. -/
theorem verify_files_workflow_carry_forward_witness :
    check_file_changed
      { emptyMetadata with files := some (FilesEntry.listE
          [⟨some "a.py", some "h1", none, none, some "t0"⟩]) }
      "a.py" "h1" = false :=
  (verify_files_workflow_carry_forward (fun _ => true) "ts" "local" "m"
    "v" "T"
    { emptyMetadata with files := some (FilesEntry.listE
        [⟨some "a.py", some "h1", none, none, some "t0"⟩]) }
    [⟨"a.py", "h1", "c1"⟩, ⟨"b.py", "h2", "c2"⟩] ⟨"a.py", "h1", "c1"⟩
    (by decide) (by decide)
    ⟨⟨some "a.py", some "h1", none, none, some "t0"⟩, rfl, rfl⟩).1

/-! ### Metadata Compiler round-trip (C7) -/
theorem approved_map_roundtrip (M : List (String × AInfo))
    (hM : (M.map Prod.fst).Nodup) :
    approved_map_from_existing
        (some (FilesEntry.listE (files_list_from_map M))) =
      (List.insertionSort strLe (M.map Prod.fst)).map
        (fun p => (p, (lookupA M p).getD ⟨none, none, none⟩)) := by
  have hknd : (List.insertionSort strLe (M.map Prod.fst)).Nodup :=
    ((List.perm_insertionSort strLe (M.map Prod.fst)).nodup_iff).mpr hM
  show (files_list_from_map M).foldl
      (fun m item =>
        if item.status.getD "ok" = "ok" then
          upsert m (item.path.getD "")
            (⟨item.hash, item.size, item.verified_at⟩ : AInfo)
        else m) [] = _
  rw [files_list_from_map, List.foldl_map]
  have hfun : (fun (m : List (String × AInfo)) (p : String) =>
      (fun m (item : FileRec) =>
        if item.status.getD "ok" = "ok" then
          upsert m (item.path.getD "")
            (⟨item.hash, item.size, item.verified_at⟩ : AInfo)
        else m) m
        (let info := (lookupA M p).getD ⟨none, none, none⟩
         ⟨some p, info.hash, info.size, some "ok", info.verified_at⟩))
      = fun m p => upsert m p ((lookupA M p).getD ⟨none, none, none⟩) := by
    funext m p
    rfl
  rw [hfun]
  exact foldl_upsert_graph (List.insertionSort strLe (M.map Prod.fst))
    (fun p => (lookupA M p).getD ⟨none, none, none⟩) []
    (fun k _ hk => absurd hk (List.not_mem_nil k)) hknd


theorem files_list_from_map_roundtrip (M : List (String × AInfo))
    (hM : (M.map Prod.fst).Nodup) :
    files_list_from_map (approved_map_from_existing
        (some (FilesEntry.listE (files_list_from_map M)))) =
      files_list_from_map M := by
  rw [approved_map_roundtrip M hM]
  have hknd : (List.insertionSort strLe (M.map Prod.fst)).Nodup :=
    ((List.perm_insertionSort strLe (M.map Prod.fst)).nodup_iff).mpr hM
  have hsorted : List.Sorted strLe (List.insertionSort strLe (M.map Prod.fst)) :=
    List.sorted_insertionSort strLe (M.map Prod.fst)
  have hkeys : ((List.insertionSort strLe (M.map Prod.fst)).map
        (fun p => (p, (lookupA M p).getD ⟨none, none, none⟩))).map Prod.fst
      = List.insertionSort strLe (M.map Prod.fst) := by
    rw [List.map_map]
    exact List.map_id _
  show (List.insertionSort strLe (((List.insertionSort strLe (M.map Prod.fst)).map
        (fun p => (p, (lookupA M p).getD ⟨none, none, none⟩))).map Prod.fst)).map _
      = _
  rw [hkeys, hsorted.insertionSort_eq]
  unfold files_list_from_map
  apply List.map_congr_left
  intro p hp
  have hl : lookupA ((List.insertionSort strLe (M.map Prod.fst)).map
      (fun p => (p, (lookupA M p).getD ⟨none, none, none⟩))) p
      = some ((lookupA M p).getD ⟨none, none, none⟩) :=
    lookupA_map_graph _ _ p hp
  rw [hl]
  rfl


/-- C7: re-running the Metadata Compiler on its own output with an empty
session reproduces the same `files` list (same records, same path-sorted
order) and copies `model_hash` and `last_verified` through unchanged. -/
theorem compute_run_metadata_roundtrip (existing : Metadata)
    (session : List SessionFile)
    (tt ti tv T ts tt2 ti2 tv2 T2 ts2 : String) :
    ((compute_run_metadata (compute_run_metadata existing session tt ti tv
        T ts) [] tt2 ti2 tv2 T2 ts2).files =
      (compute_run_metadata existing session tt ti tv T ts).files) ∧
      ((compute_run_metadata (compute_run_metadata existing session tt ti
        tv T ts) [] tt2 ti2 tv2 T2 ts2).model_hash =
      (compute_run_metadata existing session tt ti tv T ts).model_hash) ∧
      ((compute_run_metadata (compute_run_metadata existing session tt ti
        tv T ts) [] tt2 ti2 tv2 T2 ts2).last_verified =
      (compute_run_metadata existing session tt ti tv T ts).last_verified)
    := by
  refine ⟨?_, rfl, rfl⟩
  have hM : (((session.foldl (sessionStep ts)
      (approved_map_from_existing existing.files, 0, 0)).1).map
        Prod.fst).Nodup :=
    nodup_keys_sessionFold session ts _
      (nodup_keys_approved_map existing.files)
  show some (FilesEntry.listE (files_list_from_map
      (approved_map_from_existing (some (FilesEntry.listE
        (files_list_from_map _)))))) = _
  rw [files_list_from_map_roundtrip _ hM]
  rfl

/-! ### Approved-files list invariant (C8) -/

/-- The list-shaped `files` entry of a metadata document (empty for any
other shape). -/
def files_of (meta : Metadata) : List FileRec :=
  match meta.files with
  | some (FilesEntry.listE items) => items
  | _ => []

theorem sessionFold_lookup_preserve (ts fname : String) :
    ∀ (t : List SessionFile), fname ∉ t.map SessionFile.filename →
      ∀ acc : List (String × AInfo) × Nat × Nat,
        lookupA (t.foldl (sessionStep ts) acc).1 fname =
          lookupA acc.1 fname := by
  intro t
  induction t with
  | nil => intro _ acc; rfl
  | cons a t ih =>
    intro h acc
    have hne : fname ≠ a.filename := fun he => h (by simp [he])
    have ht : fname ∉ t.map SessionFile.filename := fun hm => h (by simp [hm])
    rw [List.foldl_cons, ih ht _]
    by_cases ha : a.approved = true
    · show lookupA (sessionStep ts acc a).1 fname = lookupA acc.1 fname
      simp only [sessionStep, ha, if_true]
      exact lookupA_upsert_ne _ _ _ _ hne
    · show lookupA (sessionStep ts acc a).1 fname = lookupA acc.1 fname
      simp only [sessionStep, ha]
      simp

theorem sessionFold_lookup (ts : String) :
    ∀ (session : List SessionFile) (sf : SessionFile),
      (session.map SessionFile.filename).Nodup → sf ∈ session →
      sf.approved = true →
      ∀ acc : List (String × AInfo) × Nat × Nat,
        lookupA (session.foldl (sessionStep ts) acc).1 sf.filename =
          some ⟨some sf.hash, some sf.content.utf8ByteSize, some ts⟩ := by
  intro session
  induction session with
  | nil => intro sf _ hf; cases hf
  | cons a t ih =>
    intro sf hnd hf happ acc
    rcases List.mem_cons.mp hf with rfl | hf'
    · have hnotin : sf.filename ∉ t.map SessionFile.filename :=
        (List.nodup_cons.mp hnd).1
      rw [List.foldl_cons, sessionFold_lookup_preserve ts sf.filename t hnotin _]
      show lookupA (sessionStep ts acc sf).1 sf.filename = _
      simp only [sessionStep, happ, if_true]
      exact lookupA_upsert_self _ _ _
    · rw [List.foldl_cons]
      exact ih sf (List.nodup_cons.mp hnd).2 hf' happ _

/-- C8: the `files` list produced by the Metadata Compiler has pairwise
distinct paths, is sorted in ascending path order, and carries, for every
approved session file, a record with that file's hash, UTF-8 size and the
run's timestamp (latest wins over any existing record at the same
path). -/
theorem compute_run_metadata_files_invariant (existing : Metadata)
    (session : List SessionFile) (tt ti tv T ts : String)
    (sf : SessionFile) (hnd : (session.map SessionFile.filename).Nodup)
    (hmem : sf ∈ session) (happ : sf.approved = true) :
    ((files_of (compute_run_metadata existing session tt ti tv T ts)).map
        FileRec.path).Nodup ∧
      List.Sorted (· ≤ ·)
        ((files_of (compute_run_metadata existing session tt ti tv T ts)).map
          (fun r => r.path.getD "")) ∧
      (⟨some sf.filename, some sf.hash, some sf.content.utf8ByteSize,
        some "ok", some ts⟩ : FileRec) ∈
        files_of (compute_run_metadata existing session tt ti tv T ts) := by
  have hM : (((session.foldl (sessionStep ts)
      (approved_map_from_existing existing.files, 0, 0)).1).map
        Prod.fst).Nodup :=
    nodup_keys_sessionFold session ts _
      (nodup_keys_approved_map existing.files)
  set M := (session.foldl (sessionStep ts)
    (approved_map_from_existing existing.files, 0, 0)).1 with hMdef
  have hfe : files_of (compute_run_metadata existing session tt ti tv T ts)
      = files_list_from_map M := rfl
  have hknd : (List.insertionSort strLe (M.map Prod.fst)).Nodup :=
    ((List.perm_insertionSort strLe (M.map Prod.fst)).nodup_iff).mpr hM
  have hsorted : List.Sorted strLe (List.insertionSort strLe (M.map Prod.fst)) :=
    List.sorted_insertionSort strLe (M.map Prod.fst)
  refine ⟨?_, ?_, ?_⟩
  · rw [hfe]
    unfold files_list_from_map
    rw [List.map_map]
    have : (FileRec.path ∘ fun path =>
        (let info := (lookupA M path).getD ⟨none, none, none⟩
         (⟨some path, info.hash, info.size, some "ok", info.verified_at⟩ :
           FileRec))) = fun path => some path := by
      funext q
      rfl
    rw [this]
    exact hknd.map (Option.some_injective String)
  · rw [hfe]
    unfold files_list_from_map
    rw [List.map_map]
    have : ((fun r : FileRec => r.path.getD "") ∘ fun path =>
        (let info := (lookupA M path).getD ⟨none, none, none⟩
         (⟨some path, info.hash, info.size, some "ok", info.verified_at⟩ :
           FileRec))) = fun path => path := by
      funext q
      rfl
    rw [this]
    have hid : (List.insertionSort strLe (M.map Prod.fst)).map
        (fun path => path) = List.insertionSort strLe (M.map Prod.fst) := by
      simp
    rw [hid]
    exact hsorted
  · rw [hfe]
    have hl : lookupA M sf.filename =
        some ⟨some sf.hash, some sf.content.utf8ByteSize, some ts⟩ :=
      sessionFold_lookup ts session sf hnd hmem happ _
    have hkey : sf.filename ∈ M.map Prod.fst :=
      mem_keys_of_lookupA M sf.filename _ hl
    have hks : sf.filename ∈ List.insertionSort strLe (M.map Prod.fst) :=
      (List.mem_insertionSort strLe).mpr hkey
    unfold files_list_from_map
    have hmm := List.mem_map_of_mem (fun path =>
        (let info := (lookupA M path).getD ⟨none, none, none⟩
         (⟨some path, info.hash, info.size, some "ok", info.verified_at⟩ :
           FileRec))) hks
    have h2 : (fun path =>
        (let info := (lookupA M path).getD ⟨none, none, none⟩
         (⟨some path, info.hash, info.size, some "ok", info.verified_at⟩ :
           FileRec))) sf.filename =
        ⟨some sf.filename, some sf.hash, some sf.content.utf8ByteSize,
          some "ok", some ts⟩ := by
      show (let info := (lookupA M sf.filename).getD ⟨none, none, none⟩
        (⟨some sf.filename, info.hash, info.size, some "ok",
          info.verified_at⟩ : FileRec)) = _
      rw [hl]
      rfl
    rw [h2] at hmm
    exact hmm

/-- Witness for `compute_run_metadata_files_invariant`: the single
approved session file appears in the compiled files list with its hash,
size and timestamp. -/
theorem compute_run_metadata_files_invariant_witness :
    (⟨some "a.py", some "h1", some ("c1" : String).utf8ByteSize, some "ok",
      some "t"⟩ : FileRec) ∈
      files_of (compute_run_metadata emptyMetadata
        [⟨"a.py", "h1", "c1", true⟩] "local" "m" "v" "T" "t") :=
  (compute_run_metadata_files_invariant emptyMetadata
    [⟨"a.py", "h1", "c1", true⟩] "local" "m" "v" "T" "t"
    ⟨"a.py", "h1", "c1", true⟩ (by decide) (by decide) rfl).2.2


end ModelSentinel
